import Mathlib

/-!
Verification of the sparse spectral-kernel CQT engine of the `showcqt`
audio-to-video filter (`libavfilter/avf_showcqt.c`).

The C code works on single-precision complex floats; the shallow embedding
below replaces `FFTSample` by exact rationals (`ℚ`) and `FFTComplex` by a
pair of rationals (`CQ`), so every arithmetic step of the source is mirrored
exactly, without floating-point rounding.  The FFT primitive (`av_fft_permute`
followed by `av_fft_calc`, an external black box per the specification) is
modelled as the textbook forward DFT with an abstract root of unity.
-/

/-- Exact model of `FFTComplex`: a complex number with rational re/im parts
(the C code stores single-precision floats). -/
@[ext]
structure CQ where
  re : ℚ
  im : ℚ
deriving DecidableEq

namespace CQ

instance : Zero CQ := ⟨⟨0, 0⟩⟩
instance : One CQ := ⟨⟨1, 0⟩⟩
instance : Add CQ := ⟨fun a b => ⟨a.re + b.re, a.im + b.im⟩⟩
instance : Neg CQ := ⟨fun a => ⟨-a.re, -a.im⟩⟩
instance : Mul CQ := ⟨fun a b => ⟨a.re * b.re - a.im * b.im, a.re * b.im + a.im * b.re⟩⟩

@[simp] theorem zero_re : (0 : CQ).re = 0 := rfl
@[simp] theorem zero_im : (0 : CQ).im = 0 := rfl
@[simp] theorem one_re : (1 : CQ).re = 1 := rfl
@[simp] theorem one_im : (1 : CQ).im = 0 := rfl
@[simp] theorem add_re (a b : CQ) : (a + b).re = a.re + b.re := rfl
@[simp] theorem add_im (a b : CQ) : (a + b).im = a.im + b.im := rfl
@[simp] theorem neg_re (a : CQ) : (-a).re = -a.re := rfl
@[simp] theorem neg_im (a : CQ) : (-a).im = -a.im := rfl
@[simp] theorem mul_re (a b : CQ) : (a * b).re = a.re * b.re - a.im * b.im := rfl
@[simp] theorem mul_im (a b : CQ) : (a * b).im = a.re * b.im + a.im * b.re := rfl

instance : CommRing CQ where
  add := (· + ·)
  zero := 0
  neg := Neg.neg
  mul := (· * ·)
  one := 1
  nsmul := nsmulRec
  zsmul := zsmulRec
  add_assoc a b c := by ext <;> simp <;> ring
  zero_add a := by ext <;> simp
  add_zero a := by ext <;> simp
  add_comm a b := by ext <;> simp <;> ring
  neg_add_cancel a := by ext <;> simp
  mul_assoc a b c := by ext <;> simp <;> ring
  one_mul a := by ext <;> simp
  mul_one a := by ext <;> simp
  left_distrib a b c := by ext <;> simp <;> ring
  right_distrib a b c := by ext <;> simp <;> ring
  zero_mul a := by ext <;> simp
  mul_zero a := by ext <;> simp
  mul_comm a b := by ext <;> simp <;> ring

/-- Embedding of a rational (a purely real complex value). -/
def ofQ (q : ℚ) : CQ := ⟨q, 0⟩

@[simp] theorem ofQ_re (q : ℚ) : (ofQ q).re = q := rfl
@[simp] theorem ofQ_im (q : ℚ) : (ofQ q).im = 0 := rfl

/-- Complex conjugation. -/
def conj (a : CQ) : CQ := ⟨a.re, -a.im⟩

@[simp] theorem conj_re (a : CQ) : (conj a).re = a.re := rfl
@[simp] theorem conj_im (a : CQ) : (conj a).im = -a.im := rfl

@[simp] theorem conj_conj (a : CQ) : conj (conj a) = a := by ext <;> simp

theorem conj_add (a b : CQ) : conj (a + b) = conj a + conj b := by ext <;> simp <;> ring

theorem conj_mul (a b : CQ) : conj (a * b) = conj a * conj b := by ext <;> simp <;> ring

theorem conj_one : conj (1 : CQ) = 1 := by ext <;> simp

theorem conj_zero : conj (0 : CQ) = 0 := by ext <;> simp

theorem conj_pow (a : CQ) (n : ℕ) : conj (a ^ n) = conj a ^ n := by
  induction n with
  | zero => simp [conj_one]
  | succ k ih => rw [pow_succ, conj_mul, ih, pow_succ]

theorem conj_eq_self_of_im_eq_zero (a : CQ) (h : a.im = 0) : conj a = a := by
  ext <;> simp [h]

/-- Conjugation as a ring homomorphism, to transport over finite sums. -/
def conjHom : CQ →+* CQ where
  toFun := conj
  map_one' := conj_one
  map_mul' := conj_mul
  map_zero' := conj_zero
  map_add' := conj_add

theorem conj_sum {α : Type} (s : Finset α) (f : α → CQ) :
    conj (∑ n ∈ s, f n) = ∑ n ∈ s, conj (f n) :=
  map_sum conjHom f s

/-- The real part as an additive homomorphism. -/
def reHom : CQ →+ ℚ where
  toFun := CQ.re
  map_zero' := rfl
  map_add' := fun _ _ => rfl

/-- The imaginary part as an additive homomorphism. -/
def imHom : CQ →+ ℚ where
  toFun := CQ.im
  map_zero' := rfl
  map_add' := fun _ _ => rfl

theorem re_sum {α : Type} (s : Finset α) (f : α → CQ) :
    (∑ n ∈ s, f n).re = ∑ n ∈ s, (f n).re :=
  map_sum reHom f s

theorem im_sum {α : Type} (s : Finset α) (f : α → CQ) :
    (∑ n ∈ s, f n).im = ∑ n ∈ s, (f n).im :=
  map_sum imHom f s

/-- In a commutative monoid, two-sided inverses of the same element agree.
Used to identify `(conj ω)^(x·n)` with `ω^((N−x)·n)` for a unit root `ω`. -/
theorem mul_eq_one_unique (a b c : CQ) (hb : a * b = 1) (hc : a * c = 1) : b = c := by
  calc b = b * (a * c) := by rw [hc, mul_one]
    _ = (a * b) * c := by ring
    _ = c := by rw [hb, one_mul]

end CQ

/-- The forward DFT of length `N` with root `ω`, modelling the external FFT
primitive `av_fft_permute` + `av_fft_calc` applied to a length-`N` buffer:
`(dft N ω f) k = Σ_{n < N} f n · ω^(k·n)` where `ω = exp(-2πi/N)` for the
real primitive. -/
def dft (N : ℕ) (ω : CQ) (f : ℕ → CQ) (k : ℕ) : CQ :=
  ∑ n ∈ Finset.range N, f n * ω ^ (k * n)

theorem dft_zero_input (N : ℕ) (ω : CQ) (k : ℕ) :
    dft N ω (fun _ => 0) k = 0 := by
  simp [dft]

/-! ### The dual-real FFT unpacker (`plot_cqt`, lines 313-336)

`plot_cqt` copies the input ring into `fft_result_left`, runs the forward FFT
in place, and then separates the left/right spectra with an in-place loop over
`x = 1 .. fft_len/2`, writing entries `x` and `fft_len - x` of both buffers.
The loop is embedded as explicit state passing over functional arrays. -/

/-- Pointwise array update, modelling a single store `a[i] = v`. -/
def upd (f : ℕ → CQ) (i : ℕ) (v : CQ) : ℕ → CQ :=
  fun j => if j = i then v else f j

@[simp] theorem upd_same (f : ℕ → CQ) (i : ℕ) (v : CQ) : upd f i v i = v := by
  simp [upd]

theorem upd_other (f : ℕ → CQ) (i j : ℕ) (v : CQ) (h : j ≠ i) : upd f i v j = f j := by
  simp [upd, h]

/-- The DC separation executed before the loop (lines 319-322).  The C order
matters: `fft_result_right[0]` is computed from `fft_result_left[0].im` before
`fft_result_left[0]` is overwritten.  The right buffer is freshly overwritten
on every call; its prior contents are modelled as zero. -/
def unpackInit (F : ℕ → CQ) : (ℕ → CQ) × (ℕ → CQ) :=
  (upd F 0 ⟨2 * (F 0).re, 0⟩, upd (fun _ => 0) 0 ⟨2 * (F 0).im, 0⟩)

/-- One iteration of the separation loop at index `x` (lines 323-336), with the
stores in source order: the right entries `x` and `N-x` first (reading the
still-unmodified left buffer), then left entry `x`, then left entry `N-x`
which reads the just-updated left entry `x`. -/
def unpackStep (N : ℕ) (p : (ℕ → CQ) × (ℕ → CQ)) (x : ℕ) : (ℕ → CQ) × (ℕ → CQ) :=
  let L := p.1
  let R := p.2
  let tmpy := (L (N - x)).im - (L x).im
  let R1 := upd R x ⟨(L x).im + (L (N - x)).im, (L x).re - (L (N - x)).re⟩
  let R2 := upd R1 (N - x) ⟨(R1 x).re, -(R1 x).im⟩
  let L1 := upd L x ⟨(L x).re + (L (N - x)).re, tmpy⟩
  let L2 := upd L1 (N - x) ⟨(L1 x).re, -(L1 x).im⟩
  (L2, R2)

/-- The separation loop run for `x = 1 .. m` in ascending order. -/
def unpackLoop (N : ℕ) (F : ℕ → CQ) : ℕ → (ℕ → CQ) × (ℕ → CQ)
  | 0 => unpackInit F
  | m + 1 => unpackStep N (unpackLoop N F m) (m + 1)

/-- The complete unpacker: DC separation followed by the loop up to `N/2`,
applied to the transform `F` of the packed buffer. -/
def unpack (N : ℕ) (F : ℕ → CQ) : (ℕ → CQ) × (ℕ → CQ) :=
  unpackLoop N F (N / 2)

/-- Closed form of the left spectrum entry written by the loop at
`x ∈ [1, N/2]` (lines 332-333). -/
def baseL (F : ℕ → CQ) (N x : ℕ) : CQ :=
  ⟨(F x).re + (F (N - x)).re, (F (N - x)).im - (F x).im⟩

/-- Closed form of the right spectrum entry written by the loop at
`x ∈ [1, N/2]` (lines 327-328). -/
def baseR (F : ℕ → CQ) (N x : ℕ) : CQ :=
  ⟨(F x).im + (F (N - x)).im, (F x).re - (F (N - x)).re⟩

theorem baseL_self_conj (F : ℕ → CQ) (N x : ℕ) (h : N - x = x) :
    CQ.conj (baseL F N x) = baseL F N x := by
  apply CQ.conj_eq_self_of_im_eq_zero
  simp [baseL, h]

theorem baseR_self_conj (F : ℕ → CQ) (N x : ℕ) (h : N - x = x) :
    CQ.conj (baseR F N x) = baseR F N x := by
  apply CQ.conj_eq_self_of_im_eq_zero
  simp [baseR, h]


/-- Invariant of the separation loop after the iterations `x = 1 .. m`:
entry `0` holds the doubled DC parts, entries `1 .. m` hold the closed forms,
entries `N-m .. N-1` hold their conjugates, and everything else is untouched
(left: the transform `F`; right: the zero-modelled prior contents). -/
theorem unpackLoop_spec (N : ℕ) (F : ℕ → CQ) (m : ℕ) (hm : m ≤ N / 2) :
    ((unpackLoop N F m).1 0 = ⟨2 * (F 0).re, 0⟩) ∧
    ((unpackLoop N F m).2 0 = ⟨2 * (F 0).im, 0⟩) ∧
    (∀ i, 1 ≤ i → i ≤ m →
      (unpackLoop N F m).1 i = baseL F N i ∧
      (unpackLoop N F m).2 i = baseR F N i ∧
      (unpackLoop N F m).1 (N - i) = CQ.conj (baseL F N i) ∧
      (unpackLoop N F m).2 (N - i) = CQ.conj (baseR F N i)) ∧
    (∀ i, m < i → i < N - m →
      (unpackLoop N F m).1 i = F i ∧ (unpackLoop N F m).2 i = 0) := by
  induction m with
  | zero =>
    refine ⟨by simp [unpackLoop, unpackInit], by simp [unpackLoop, unpackInit], ?_, ?_⟩
    · intro i h1 h0; omega
    · intro i hi _
      have hne : i ≠ 0 := by omega
      constructor
      · simp [unpackLoop, unpackInit, upd, hne]
      · simp [unpackLoop, unpackInit, upd, hne]
  | succ k ih =>
    have hk : k ≤ N / 2 := by omega
    obtain ⟨ih0L, ih0R, ihMid, ihRest⟩ := ih hk
    have hxN : 2 * (k + 1) ≤ N := by
      have h2 := (Nat.le_div_iff_mul_le (k := 2) (by omega)).mp hm
      omega
    have hLx : (unpackLoop N F k).1 (k + 1) = F (k + 1) :=
      (ihRest _ (by omega) (by omega)).1
    have hLNx : (unpackLoop N F k).1 (N - (k + 1)) = F (N - (k + 1)) :=
      (ihRest _ (by omega) (by omega)).1
    refine ⟨?_, ?_, ?_, ?_⟩
    · have h0a : (0 : ℕ) ≠ N - (k + 1) := by omega
      have h0b : (0 : ℕ) ≠ k + 1 := by omega
      simp only [unpackLoop, unpackStep]
      rw [upd_other _ _ _ _ h0a, upd_other _ _ _ _ h0b]
      exact ih0L
    · have h0a : (0 : ℕ) ≠ N - (k + 1) := by omega
      have h0b : (0 : ℕ) ≠ k + 1 := by omega
      simp only [unpackLoop, unpackStep]
      rw [upd_other _ _ _ _ h0a, upd_other _ _ _ _ h0b]
      exact ih0R
    · intro i hi1 hi2
      by_cases hik : i ≤ k
      · -- an older cell, untouched by this iteration
        have hix : i ≠ k + 1 := by omega
        have hiNx : i ≠ N - (k + 1) := by omega
        have hNiNx : N - i ≠ N - (k + 1) := by omega
        have hNix : N - i ≠ k + 1 := by omega
        refine ⟨?_, ?_, ?_, ?_⟩
        · simp only [unpackLoop, unpackStep]
          rw [upd_other _ _ _ _ hiNx, upd_other _ _ _ _ hix]
          exact (ihMid i hi1 hik).1
        · simp only [unpackLoop, unpackStep]
          rw [upd_other _ _ _ _ hiNx, upd_other _ _ _ _ hix]
          exact (ihMid i hi1 hik).2.1
        · simp only [unpackLoop, unpackStep]
          rw [upd_other _ _ _ _ hNiNx, upd_other _ _ _ _ hNix]
          exact (ihMid i hi1 hik).2.2.1
        · simp only [unpackLoop, unpackStep]
          rw [upd_other _ _ _ _ hNiNx, upd_other _ _ _ _ hNix]
          exact (ihMid i hi1 hik).2.2.2
      · -- the cell written this very iteration: i = k + 1
        have hieq : i = k + 1 := by omega
        subst hieq
        by_cases hdiag : N - (k + 1) = k + 1
        · -- aliased case `x = N - x`: the second store wins, and the stored
          -- value coincides with the closed form (whose im part vanishes)
          refine ⟨?_, ?_, ?_, ?_⟩
          · simp only [unpackLoop, unpackStep, hdiag]
            simp only [upd_same]
            rw [hLx]
            apply CQ.ext
            · simp [baseL, hdiag]
            · simp [baseL, hdiag]
          · simp only [unpackLoop, unpackStep, hdiag]
            simp only [upd_same]
            rw [hLx]
            apply CQ.ext
            · simp [baseR, hdiag]
            · simp [baseR, hdiag]
          · rw [hdiag]
            simp only [unpackLoop, unpackStep, hdiag]
            simp only [upd_same]
            rw [hLx]
            apply CQ.ext
            · simp [baseL, CQ.conj, hdiag]
            · simp [baseL, CQ.conj, hdiag]
          · rw [hdiag]
            simp only [unpackLoop, unpackStep, hdiag]
            simp only [upd_same]
            rw [hLx]
            apply CQ.ext
            · simp [baseR, CQ.conj, hdiag]
            · simp [baseR, CQ.conj, hdiag]
        · -- generic case: the two written cells are distinct
          have hxx : (k + 1 : ℕ) ≠ N - (k + 1) := fun h => hdiag h.symm
          refine ⟨?_, ?_, ?_, ?_⟩
          · simp only [unpackLoop, unpackStep]
            rw [upd_other _ _ _ _ hxx, upd_same, hLx, hLNx]
            rfl
          · simp only [unpackLoop, unpackStep]
            rw [upd_other _ _ _ _ hxx, upd_same, hLx, hLNx]
            rfl
          · simp only [unpackLoop, unpackStep]
            rw [upd_same, upd_same, hLx, hLNx]
            rfl
          · simp only [unpackLoop, unpackStep]
            rw [upd_same, upd_same, hLx, hLNx]
            rfl
    · intro i hi1 hi2
      have hix : i ≠ k + 1 := by omega
      have hiNx : i ≠ N - (k + 1) := by omega
      constructor
      · simp only [unpackLoop, unpackStep]
        rw [upd_other _ _ _ _ hiNx, upd_other _ _ _ _ hix]
        exact (ihRest i (by omega) (by omega)).1
      · simp only [unpackLoop, unpackStep]
        rw [upd_other _ _ _ _ hiNx, upd_other _ _ _ _ hix]
        exact (ihRest i (by omega) (by omega)).2

@[simp] theorem CQ.sub_re (a b : CQ) : (a - b).re = a.re - b.re := by
  simp [sub_eq_add_neg]

@[simp] theorem CQ.sub_im (a b : CQ) : (a - b).im = a.im - b.im := by
  simp [sub_eq_add_neg]

/-- The imaginary unit of `CQ`. -/
def imagUnit : CQ := ⟨0, 1⟩

theorem baseL_eq_conj_add (F : ℕ → CQ) (N x : ℕ) :
    baseL F N x = CQ.conj (F x) + F (N - x) := by
  ext <;> simp [baseL] <;> ring

theorem baseR_eq_conj_sub (F : ℕ → CQ) (N x : ℕ) :
    baseR F N x = imagUnit * (CQ.conj (F x) - F (N - x)) := by
  ext <;> simp [baseR, imagUnit] <;> ring

/-- `filter_frame` packs the two real channels into one complex buffer:
left samples in the real part, right samples in the imaginary part
(lines 509-510). -/
def pack (a b : ℕ → ℚ) (n : ℕ) : CQ := ⟨a n, b n⟩

/-- A purely real input buffer, for stating what `DFT(left)` means. -/
def realBuf (a : ℕ → ℚ) (n : ℕ) : CQ := CQ.ofQ (a n)

/-- For a root `ω` on the unit circle with `ω^N = 1`, the conjugate power
`(conj ω)^(x·n)` agrees with `ω^((N-x)·n)`. -/
theorem conj_pow_eq (N : ℕ) (ω : CQ) (hωN : ω ^ N = 1) (hu : ω * CQ.conj ω = 1)
    (x n : ℕ) (hx : x ≤ N) : (CQ.conj ω) ^ (x * n) = ω ^ ((N - x) * n) := by
  apply CQ.mul_eq_one_unique (ω ^ (x * n))
  · rw [← mul_pow, hu, one_pow]
  · rw [← pow_add]
    have harith : x * n + (N - x) * n = N * n := by
      rw [← add_mul]
      congr 1
      omega
    rw [harith, pow_mul, hωN, one_pow]

theorem conj_dft (N : ℕ) (ω : CQ) (hωN : ω ^ N = 1) (hu : ω * CQ.conj ω = 1)
    (f : ℕ → CQ) (x : ℕ) (hx : x ≤ N) :
    CQ.conj (dft N ω f x) =
      ∑ n ∈ Finset.range N, CQ.conj (f n) * ω ^ ((N - x) * n) := by
  rw [dft, CQ.conj_sum]
  refine Finset.sum_congr rfl fun n _ => ?_
  rw [CQ.conj_mul, CQ.conj_pow, conj_pow_eq N ω hωN hu x n hx]

/-- For a real buffer, the DFT at `x` and at `N - x` are conjugates. -/
theorem dft_real_conj (N : ℕ) (ω : CQ) (hωN : ω ^ N = 1) (hu : ω * CQ.conj ω = 1)
    (a : ℕ → ℚ) (x : ℕ) (hx : x ≤ N) :
    CQ.conj (dft N ω (realBuf a) x) = dft N ω (realBuf a) (N - x) := by
  rw [conj_dft N ω hωN hu _ x hx, dft]
  refine Finset.sum_congr rfl fun n _ => ?_
  have : CQ.conj (realBuf a n) = realBuf a n := by
    ext <;> simp [realBuf]
  rw [this]

/-- Evaluating the DFT at index `N` is evaluating it at index `0`. -/
theorem dft_apply_len (N : ℕ) (ω : CQ) (hωN : ω ^ N = 1) (f : ℕ → CQ) :
    dft N ω f N = dft N ω f 0 := by
  unfold dft
  refine Finset.sum_congr rfl fun n _ => ?_
  rw [pow_mul, hωN, one_pow, Nat.zero_mul, pow_zero]

/-- Left separation identity: `conj Z[x] + Z[N-x] = 2 · Â[N-x]` where `Z` is
the transform of the packed buffer and `Â` the transform of the left channel. -/
theorem dualReal_L (N : ℕ) (ω : CQ) (hωN : ω ^ N = 1) (hu : ω * CQ.conj ω = 1)
    (a b : ℕ → ℚ) (x : ℕ) (hx : x ≤ N) :
    CQ.conj (dft N ω (pack a b) x) + dft N ω (pack a b) (N - x)
      = CQ.ofQ 2 * dft N ω (realBuf a) (N - x) := by
  rw [conj_dft N ω hωN hu _ x hx, dft, dft, ← Finset.sum_add_distrib, Finset.mul_sum]
  refine Finset.sum_congr rfl fun n _ => ?_
  have hpair : CQ.conj (pack a b n) + pack a b n = CQ.ofQ 2 * realBuf a n := by
    ext <;> simp [pack, realBuf] <;> ring
  calc CQ.conj (pack a b n) * ω ^ ((N - x) * n) + pack a b n * ω ^ ((N - x) * n)
      = (CQ.conj (pack a b n) + pack a b n) * ω ^ ((N - x) * n) := by ring
    _ = CQ.ofQ 2 * (realBuf a n * ω ^ ((N - x) * n)) := by rw [hpair]; ring

/-- Right separation identity: `i·(conj Z[x] - Z[N-x]) = 2 · B̂[N-x]`. -/
theorem dualReal_R (N : ℕ) (ω : CQ) (hωN : ω ^ N = 1) (hu : ω * CQ.conj ω = 1)
    (a b : ℕ → ℚ) (x : ℕ) (hx : x ≤ N) :
    imagUnit * (CQ.conj (dft N ω (pack a b) x) - dft N ω (pack a b) (N - x))
      = CQ.ofQ 2 * dft N ω (realBuf b) (N - x) := by
  rw [conj_dft N ω hωN hu _ x hx, dft, dft, ← Finset.sum_sub_distrib, Finset.mul_sum,
    Finset.mul_sum]
  refine Finset.sum_congr rfl fun n _ => ?_
  have hpair : imagUnit * (CQ.conj (pack a b n) - pack a b n) = CQ.ofQ 2 * realBuf b n := by
    ext <;> simp [pack, realBuf, imagUnit] <;> ring
  calc imagUnit * (CQ.conj (pack a b n) * ω ^ ((N - x) * n) - pack a b n * ω ^ ((N - x) * n))
      = (imagUnit * (CQ.conj (pack a b n) - pack a b n)) * ω ^ ((N - x) * n) := by ring
    _ = CQ.ofQ 2 * (realBuf b n * ω ^ ((N - x) * n)) := by rw [hpair]; ring

/-- Full characterization of the unpacker applied to the transform of a
packed pair of real buffers: every entry `x < N` of the separated left
spectrum is `2·conj(DFT(left))[x]`, and likewise for the right spectrum.
(The factor 2 and the conjugation are what the code actually produces.) -/
theorem unpack_dft_eq (N : ℕ) (ω : CQ) (hωN : ω ^ N = 1) (hu : ω * CQ.conj ω = 1)
    (a b : ℕ → ℚ) (x : ℕ) (hx : x < N) :
    (unpack N (dft N ω (pack a b))).1 x = CQ.ofQ 2 * CQ.conj (dft N ω (realBuf a) x) ∧
    (unpack N (dft N ω (pack a b))).2 x = CQ.ofQ 2 * CQ.conj (dft N ω (realBuf b) x) := by
  have spec := unpackLoop_spec N (dft N ω (pack a b)) (N / 2) (le_refl _)
  obtain ⟨s0L, s0R, sMid, _⟩ := spec
  by_cases hx0 : x = 0
  · subst hx0
    have hZN : dft N ω (pack a b) N = dft N ω (pack a b) 0 := dft_apply_len N ω hωN _
    have hAN : dft N ω (realBuf a) N = dft N ω (realBuf a) 0 := dft_apply_len N ω hωN _
    have hBN : dft N ω (realBuf b) N = dft N ω (realBuf b) 0 := dft_apply_len N ω hωN _
    have hL := dualReal_L N ω hωN hu a b 0 (Nat.zero_le N)
    have hR := dualReal_R N ω hωN hu a b 0 (Nat.zero_le N)
    rw [Nat.sub_zero, hZN, hAN] at hL
    rw [Nat.sub_zero, hZN, hBN] at hR
    have hca : CQ.conj (dft N ω (realBuf a) 0) = dft N ω (realBuf a) 0 := by
      have := dft_real_conj N ω hωN hu a 0 (Nat.zero_le N)
      rw [Nat.sub_zero, hAN] at this
      exact this
    have hcb : CQ.conj (dft N ω (realBuf b) 0) = dft N ω (realBuf b) 0 := by
      have := dft_real_conj N ω hωN hu b 0 (Nat.zero_le N)
      rw [Nat.sub_zero, hBN] at this
      exact this
    constructor
    · unfold unpack
      rw [s0L, hca]
      rw [← hL]
      ext <;> simp <;> ring
    · unfold unpack
      rw [s0R, hcb]
      rw [← hR]
      ext <;> simp [imagUnit] <;> ring
  · by_cases hhalf : x ≤ N / 2
    · have hx1 : 1 ≤ x := by omega
      have hxN : x ≤ N := by omega
      obtain ⟨mL, mR, _, _⟩ := sMid x hx1 hhalf
      have hL := dualReal_L N ω hωN hu a b x hxN
      have hR := dualReal_R N ω hωN hu a b x hxN
      have hca := dft_real_conj N ω hωN hu a x hxN
      have hcb := dft_real_conj N ω hωN hu b x hxN
      constructor
      · unfold unpack
        rw [mL, baseL_eq_conj_add, hL, ← hca]
      · unfold unpack
        rw [mR, baseR_eq_conj_sub, hR, ← hcb]
    · -- x in (N/2, N): the Hermitian-continuation cells
      have hi1 : 1 ≤ N - x := by omega
      have hi2 : N - x ≤ N / 2 := by omega
      have hiN : N - x ≤ N := by omega
      have hNi : N - (N - x) = x := by omega
      obtain ⟨_, _, cL, cR⟩ := sMid (N - x) hi1 hi2
      rw [hNi] at cL cR
      have hL := dualReal_L N ω hωN hu a b (N - x) hiN
      have hR := dualReal_R N ω hωN hu a b (N - x) hiN
      rw [hNi] at hL hR
      have hc2 : CQ.conj (CQ.ofQ 2) = CQ.ofQ 2 := by ext <;> simp
      constructor
      · unfold unpack
        rw [cL, baseL_eq_conj_add, hNi, hL, CQ.conj_mul, hc2]
      · unfold unpack
        rw [cR, baseR_eq_conj_sub, hNi, hR, CQ.conj_mul, hc2]

/-- C5: the unpacker computes exactly the stated equations: `L[0] = 2·Re F[0]`
and `R[0] = 2·Im F[0]` with zero imaginary parts; for `x ∈ [1, N/2]`,
`R[x] = (Im F[x] + Im F[N-x], Re F[x] - Re F[N-x])` and
`L[x] = (Re F[x] + Re F[N-x], Im F[N-x] - Im F[x])`; and for `x ∈ (N/2, N)`
the Hermitian continuation `L[N-x] = conj L[x]`, `R[N-x] = conj R[x]`,
where `F` is the single forward transform of the packed buffer. -/
theorem claim_C5_unpack_equations (N : ℕ) (F : ℕ → CQ) (x : ℕ) :
    ((unpack N F).1 0 = ⟨2 * (F 0).re, 0⟩ ∧ (unpack N F).2 0 = ⟨2 * (F 0).im, 0⟩) ∧
    (1 ≤ x → x ≤ N / 2 →
      (unpack N F).2 x = ⟨(F x).im + (F (N - x)).im, (F x).re - (F (N - x)).re⟩ ∧
      (unpack N F).1 x = ⟨(F x).re + (F (N - x)).re, (F (N - x)).im - (F x).im⟩) ∧
    (N / 2 < x → x < N →
      (unpack N F).1 (N - x) = CQ.conj ((unpack N F).1 x) ∧
      (unpack N F).2 (N - x) = CQ.conj ((unpack N F).2 x)) := by
  obtain ⟨s0L, s0R, sMid, _⟩ := unpackLoop_spec N F (N / 2) (le_refl _)
  refine ⟨⟨s0L, s0R⟩, ?_, ?_⟩
  · intro h1 h2
    obtain ⟨mL, mR, _, _⟩ := sMid x h1 h2
    exact ⟨mR, mL⟩
  · intro hlow hhigh
    have hi1 : 1 ≤ N - x := by omega
    have hi2 : N - x ≤ N / 2 := by omega
    have hNi : N - (N - x) = x := by omega
    obtain ⟨mL, mR, cjL, cjR⟩ := sMid (N - x) hi1 hi2
    rw [hNi] at cjL cjR
    unfold unpack
    rw [mL, mR, cjL, cjR, CQ.conj_conj, CQ.conj_conj]
    exact ⟨rfl, rfl⟩

/-- Concrete transform input used by witnesses for the unpacker equations. -/
def exF : ℕ → CQ := fun n => ⟨n, 1⟩

/-- Witness for C5 at `N = 4`, `x = 1` and (Hermitian part) `x = 3`. -/
theorem claim_C5_unpack_equations_witness :
    ((1:ℕ) ≤ 1 ∧ (1:ℕ) ≤ 4 / 2 ∧ 4 / 2 < 3 ∧ 3 < 4) ∧
    ((unpack 4 exF).1 1 = ⟨(exF 1).re + (exF 3).re, (exF 3).im - (exF 1).im⟩ ∧
     (unpack 4 exF).1 (4 - 3) = CQ.conj ((unpack 4 exF).1 3)) := by
  refine ⟨by decide, ?_, ?_⟩
  · exact ((claim_C5_unpack_equations 4 exF 1).2.1 (by decide) (by decide)).2
  · exact ((claim_C5_unpack_equations 4 exF 3).2.2 (by decide) (by decide)).1

/-- Root of unity used in the C4 counterexample: `-i`, the canonical forward
root for `N = 4`. -/
def exOmega : CQ := ⟨0, -1⟩

/-- Left channel for the C4 counterexample: the unit impulse at sample 1. -/
def exLeft : ℕ → ℚ := fun n => if n = 1 then 1 else 0

/-- Right channel for the C4 counterexample: silence. -/
def exRight : ℕ → ℚ := fun _ => 0

@[simp] theorem CQ.mk_zero_zero : (⟨0, 0⟩ : CQ) = 0 := rfl

@[simp] theorem CQ.mk_one_zero : (⟨1, 0⟩ : CQ) = 1 := rfl

theorem exOmega_pow_four : exOmega ^ 4 = 1 := by
  have h : exOmega ^ 4 = exOmega * exOmega * (exOmega * exOmega) := by ring
  rw [h]
  ext <;> simp [exOmega] <;> norm_num

theorem exOmega_mul_conj : exOmega * CQ.conj exOmega = 1 := by
  ext <;> simp [exOmega] <;> norm_num

theorem exOmega_pow_three : exOmega ^ 3 = ⟨0, 1⟩ := by
  have h : exOmega ^ 3 = exOmega * exOmega * exOmega := by ring
  rw [h]
  ext <;> simp [exOmega] <;> norm_num

/-- C4, counterexample: with the forward root `-i` of order `N = 4` and a
unit-impulse left channel, the unpacked left spectrum at bin 1 is `(0, 2)`
while `DFT(left)[1] = (0, -1)`: the unpacker does NOT return the plain DFT of
each channel (it returns twice its conjugate), refuting the claim as stated. -/
theorem claim_C4_counterexample :
    exOmega ^ 4 = 1 ∧ exOmega * CQ.conj exOmega = 1 ∧
    (unpack 4 (dft 4 exOmega (pack exLeft exRight))).1 1 = ⟨0, 2⟩ ∧
    dft 4 exOmega (realBuf exLeft) 1 = ⟨0, -1⟩ ∧
    (unpack 4 (dft 4 exOmega (pack exLeft exRight))).1 1
      ≠ dft 4 exOmega (realBuf exLeft) 1 := by
  have hU : (unpack 4 (dft 4 exOmega (pack exLeft exRight))).1 1 =
      ⟨(dft 4 exOmega (pack exLeft exRight) 1).re
        + (dft 4 exOmega (pack exLeft exRight) 3).re,
       (dft 4 exOmega (pack exLeft exRight) 3).im
        - (dft 4 exOmega (pack exLeft exRight) 1).im⟩ := rfl
  have hF1 : dft 4 exOmega (pack exLeft exRight) 1 = ⟨0, -1⟩ := by
    simp [dft, Finset.sum_range_succ, pack, exLeft, exRight]
    rfl
  have hF3 : dft 4 exOmega (pack exLeft exRight) 3 = ⟨0, 1⟩ := by
    simp [dft, Finset.sum_range_succ, pack, exLeft, exRight]
    exact exOmega_pow_three
  have hRHS : dft 4 exOmega (realBuf exLeft) 1 = ⟨0, -1⟩ := by
    simp [dft, Finset.sum_range_succ, realBuf, exLeft, CQ.ofQ]
    rfl
  refine ⟨exOmega_pow_four, exOmega_mul_conj, ?_, hRHS, ?_⟩
  · rw [hU, hF1, hF3]
    norm_num [CQ.mk.injEq]
  · rw [hU, hF1, hF3, hRHS]
    norm_num [CQ.mk.injEq]

/-- C4 amended: for every pair of real length-`N` buffers packed as the
real/imaginary parts of one complex buffer, one forward FFT followed by the
unpacker yields, at every bin `x < N`, exactly TWICE THE CONJUGATE of the
individual DFTs of the left and of the right channel (bit-exact given an
exact FFT primitive with a unit root `ω` of order dividing `N`). -/
theorem claim_C4_amended (N : ℕ) (ω : CQ) (a b : ℕ → ℚ) (x : ℕ)
    (hωN : ω ^ N = 1) (hu : ω * CQ.conj ω = 1) (hx : x < N) :
    (unpack N (dft N ω (pack a b))).1 x = CQ.ofQ 2 * CQ.conj (dft N ω (realBuf a) x) ∧
    (unpack N (dft N ω (pack a b))).2 x = CQ.ofQ 2 * CQ.conj (dft N ω (realBuf b) x) :=
  unpack_dft_eq N ω hωN hu a b x hx

/-- Witness for the amended C4 at `N = 4`, `x = 1`. -/
theorem claim_C4_amended_witness :
    (exOmega ^ 4 = 1 ∧ exOmega * CQ.conj exOmega = 1 ∧ (1:ℕ) < 4) ∧
    (unpack 4 (dft 4 exOmega (pack exLeft exRight))).1 1
      = CQ.ofQ 2 * CQ.conj (dft 4 exOmega (realBuf exLeft) 1) := by
  refine ⟨⟨exOmega_pow_four, exOmega_mul_conj, by decide⟩, ?_⟩
  exact (claim_C4_amended 4 exOmega exLeft exRight 1
    exOmega_pow_four exOmega_mul_conj (by decide)).1

/-! ### Sparse-kernel truncation (`config_output`, lines 254-278)

After the kernel FFT, `config_output` sorts the `fft_len` real coefficients by
ascending absolute value (`AV_QSORT` with `qsort_sparsecoeff`), accumulates
their absolute values, and cuts at the first position where the running sum
exceeds `total * coeffclamp * COEFF_CLAMP`; everything from the cut to the end
is retained as the sparse kernel.  The float coefficients are modelled as
exact rationals; the qsort result is modelled as an arbitrary permutation
sorted by ascending absolute value, which is exactly what the (tie-arbitrary)
comparator guarantees. -/

/-- Mirror of the C `SparseCoeff` struct. -/
structure SparseCoeff where
  value : ℚ
  index : ℕ
deriving DecidableEq

/-- Sum of absolute coefficient values (the `total` / `partial` accumulator). -/
def absSum : List SparseCoeff → ℚ
  | [] => 0
  | c :: rest => |c.value| + absSum rest

/-- The cut scan of lines 264-278: starting from accumulator `acc`, return the
offset of the first element whose inclusion pushes the running absolute sum
strictly above `T`, or `none` if the threshold is never exceeded. -/
def cutAux (T : ℚ) (acc : ℚ) : List SparseCoeff → Option ℕ
  | [] => none
  | c :: rest =>
      if T < acc + |c.value| then some 0
      else (cutAux T (acc + |c.value|) rest).map (· + 1)

/-- Cut position over a whole sorted coefficient array (accumulator starts
at 0, like `partial`). -/
def cutIndex (T : ℚ) (l : List SparseCoeff) : Option ℕ := cutAux T 0 l

/-- The retained sparse kernel: the tail from the cut onward
(`coeffs_len[k] = fft_len - x`, entries `coeff_sort[x..]`); when the scan
never fires no coefficients are stored and the kernel stays empty. -/
def sparsify (T : ℚ) (sorted : List SparseCoeff) : List SparseCoeff :=
  match cutIndex T sorted with
  | some x => sorted.drop x
  | none => []

theorem absSum_nonneg (l : List SparseCoeff) : 0 ≤ absSum l := by
  induction l with
  | nil => simp [absSum]
  | cons c rest ih =>
    have := abs_nonneg c.value
    simp only [absSum]
    linarith

theorem absSum_take_le (l : List SparseCoeff) (m : ℕ) :
    absSum (l.take m) ≤ absSum l := by
  induction l generalizing m with
  | nil => simp [absSum]
  | cons c rest ih =>
    cases m with
    | zero =>
      have := absSum_nonneg (c :: rest)
      simp [absSum]
      have := abs_nonneg c.value
      have := absSum_nonneg rest
      linarith
    | succ k =>
      simp only [List.take, absSum]
      have := ih k
      linarith

theorem absSum_take_mono (l : List SparseCoeff) (m n : ℕ) (h : m ≤ n) :
    absSum (l.take m) ≤ absSum (l.take n) := by
  have hmin : min m n = m := by omega
  calc absSum (l.take m) = absSum ((l.take n).take m) := by
        rw [List.take_take, hmin]
    _ ≤ absSum (l.take n) := absSum_take_le _ _

/-- What a successful cut means: the discarded prefix mass stays within the
threshold and including the first retained element exceeds it. -/
theorem cutAux_spec (T : ℚ) (l : List SparseCoeff) :
    ∀ (acc : ℚ) (x : ℕ), cutAux T acc l = some x → acc ≤ T →
      x < l.length ∧ acc + absSum (l.take x) ≤ T ∧ T < acc + absSum (l.take (x + 1)) := by
  induction l with
  | nil => intro acc x h _; simp [cutAux] at h
  | cons c rest ih =>
    intro acc x h hacc
    by_cases hfire : T < acc + |c.value|
    · have hx0 : x = 0 := by
        simp [cutAux, hfire] at h
        omega
      subst hx0
      refine ⟨by simp, by simpa [absSum] using hacc, ?_⟩
      simpa [absSum] using hfire
    · simp only [cutAux, if_neg hfire] at h
      obtain ⟨y, hy, hxy⟩ := Option.map_eq_some'.mp h
      have hacc2 : acc + |c.value| ≤ T := by linarith [not_lt.mp hfire]
      obtain ⟨hlen, hle, hgt⟩ := ih (acc + |c.value|) y hy hacc2
      subst hxy
      refine ⟨by simp; omega, ?_, ?_⟩
      · simp only [List.take, absSum]
        linarith
      · simp only [List.take, absSum]
        linarith

/-- The scan fires as soon as the total remaining mass exceeds the slack. -/
theorem cutAux_fires (T : ℚ) (l : List SparseCoeff) :
    ∀ acc : ℚ, acc ≤ T → T < acc + absSum l → ∃ x, cutAux T acc l = some x := by
  induction l with
  | nil =>
    intro acc hacc habs
    simp [absSum] at habs
    linarith
  | cons c rest ih =>
    intro acc hacc habs
    by_cases hfire : T < acc + |c.value|
    · exact ⟨0, by simp [cutAux, hfire]⟩
    · have hacc2 : acc + |c.value| ≤ T := by linarith [not_lt.mp hfire]
      have habs2 : T < acc + |c.value| + absSum rest := by
        simp only [absSum] at habs
        linarith
      obtain ⟨y, hy⟩ := ih (acc + |c.value|) hacc2 habs2
      exact ⟨y + 1, by simp [cutAux, if_neg hfire, hy]⟩

/-- C3: after initialization the sparse kernel of a column is the suffix of
the coefficients sorted by ascending absolute value such that the discarded
prefix's absolute-value sum is at most `coeffclamp · 10⁻⁴` times the total
absolute-value sum, including the next (first retained) element in the prefix
would exceed that threshold, and the retained tail is the minimal such suffix
(the discarded prefix is maximal).  `s` is the sorted coefficient array
produced by `AV_QSORT` (any permutation of the column's coefficients that is
sorted by ascending absolute value, since the comparator breaks ties
arbitrarily). -/
theorem claim_C3_minimal_suffix (orig s : List SparseCoeff) (coeffclamp : ℚ)
    (hsorted : List.Sorted (fun a b => |a.value| ≤ |b.value|) s)
    (hperm : s.Perm orig)
    (hc0 : 0 < coeffclamp) (hc10 : coeffclamp ≤ 10)
    (hS : 0 < absSum s) :
    ∃ x, x < s.length ∧
      sparsify (absSum s * coeffclamp * (1/10000)) s = s.drop x ∧
      absSum (s.take x) ≤ absSum s * coeffclamp * (1/10000) ∧
      absSum s * coeffclamp * (1/10000) < absSum (s.take (x + 1)) ∧
      ∀ y, absSum (s.take y) ≤ absSum s * coeffclamp * (1/10000) → y ≤ x := by
  have hT0 : 0 ≤ absSum s * coeffclamp * (1/10000) := by positivity
  have hTS : absSum s * coeffclamp * (1/10000) < absSum s := by nlinarith
  obtain ⟨x, hx⟩ := cutAux_fires (absSum s * coeffclamp * (1/10000)) s 0 hT0 (by linarith)
  obtain ⟨hlen, hle, hgt⟩ := cutAux_spec (absSum s * coeffclamp * (1/10000)) s 0 x hx hT0
  rw [zero_add] at hle hgt
  refine ⟨x, hlen, ?_, hle, hgt, ?_⟩
  · unfold sparsify cutIndex
    rw [hx]
  · intro y hy
    by_contra hxy
    have h1 : x + 1 ≤ y := by omega
    have h2 := absSum_take_mono s (x + 1) y h1
    linarith

/-- Concrete sorted coefficient list used by the sparsification witnesses. -/
def exCoeffs : List SparseCoeff := [⟨1, 7⟩, ⟨2, 3⟩]

/-- Witness for C3 with two coefficients and `coeffclamp = 1`. -/
theorem claim_C3_minimal_suffix_witness :
    (List.Sorted (fun a b : SparseCoeff => |a.value| ≤ |b.value|) exCoeffs ∧
     exCoeffs.Perm exCoeffs ∧ (0:ℚ) < 1 ∧ (1:ℚ) ≤ 10 ∧ 0 < absSum exCoeffs) ∧
    (∃ x, x < exCoeffs.length ∧
      sparsify (absSum exCoeffs * 1 * (1/10000)) exCoeffs = exCoeffs.drop x ∧
      absSum (exCoeffs.take x) ≤ absSum exCoeffs * 1 * (1/10000) ∧
      absSum exCoeffs * 1 * (1/10000) < absSum (exCoeffs.take (x + 1)) ∧
      ∀ y, absSum (exCoeffs.take y) ≤ absSum exCoeffs * 1 * (1/10000) → y ≤ x) := by
  have hsorted : List.Sorted (fun a b : SparseCoeff => |a.value| ≤ |b.value|) exCoeffs := by
    simp [exCoeffs, List.sorted_cons]
  have hS : (0:ℚ) < absSum exCoeffs := by
    norm_num [exCoeffs, absSum, abs_one, abs_two]
  exact ⟨⟨hsorted, List.Perm.refl _, by norm_num, by norm_num, hS⟩,
    claim_C3_minimal_suffix exCoeffs exCoeffs 1 hsorted (List.Perm.refl _)
      (by norm_num) (by norm_num) hS⟩

/-- C10: for every column whose total absolute coefficient mass is positive,
the sparsification cut fires (since `coeffclamp ≤ 10` keeps the threshold
strictly below the total), so the retained kernel has length at least 1 and
the per-column array is allocated; the bin evaluator therefore never walks an
unallocated kernel for such columns. -/
theorem claim_C10_kernel_nonempty (l : List SparseCoeff) (coeffclamp : ℚ)
    (hc0 : 0 < coeffclamp) (hc10 : coeffclamp ≤ 10) (hS : 0 < absSum l) :
    1 ≤ (sparsify (absSum l * coeffclamp * (1/10000)) l).length := by
  have hT0 : 0 ≤ absSum l * coeffclamp * (1/10000) := by positivity
  have hTS : absSum l * coeffclamp * (1/10000) < absSum l := by nlinarith
  obtain ⟨x, hx⟩ := cutAux_fires (absSum l * coeffclamp * (1/10000)) l 0 hT0 (by linarith)
  obtain ⟨hlen, -, -⟩ := cutAux_spec (absSum l * coeffclamp * (1/10000)) l 0 x hx hT0
  unfold sparsify cutIndex
  rw [hx]
  rw [List.length_drop]
  omega

/-- Witness for C10 with one coefficient and `coeffclamp = 1`. -/
theorem claim_C10_kernel_nonempty_witness :
    ((0:ℚ) < 1 ∧ (1:ℚ) ≤ 10 ∧ 0 < absSum exCoeffs) ∧
    1 ≤ (sparsify (absSum exCoeffs * 1 * (1/10000)) exCoeffs).length := by
  have hS : (0:ℚ) < absSum exCoeffs := by
    norm_num [exCoeffs, absSum, abs_one, abs_two]
  exact ⟨⟨by norm_num, by norm_num, hS⟩,
    claim_C10_kernel_nonempty exCoeffs 1 (by norm_num) (by norm_num) hS⟩

/-! ### Initialization divisibility gate (`config_output`, lines 165-169) -/

/-- Outcome of the only configuration check in `config_output` (allocation
failures are the host's `ENOMEM` and are out of scope here). -/
inductive CfgResult where
  | ok
  | einval
deriving DecidableEq

/-- Mirror of `if (rate % (s->fps * s->count)) return AVERROR(EINVAL)`. -/
def config_output_check (rate fps count : ℕ) : CfgResult :=
  if rate % (fps * count) ≠ 0 then CfgResult.einval else CfgResult.ok

/-- C6, counterexample: the configuration `rate = 44100, fps = 30, count = 6`
which the claim says must fail actually passes the divisibility gate, because
`44100 = 180 · 245` exactly. -/
theorem claim_C6_counterexample :
    config_output_check 44100 30 6 = CfgResult.ok ∧ 44100 % (30 * 6) = 0 ∧ 30 * 6 * 245 = 44100 := by
  refine ⟨by decide, by decide, by decide⟩

/-- C6 amended: with options in range, initialization fails with the
invalid-configuration error if and only if `rate` is not an exact multiple of
`fps · count`; in particular `rate = 44100, fps = 30, count = 6` succeeds
(since `44100 = 180 · 245`), while for example `rate = 44100, fps = 30,
count = 11` fails; on the failure path the gate fires before any state is set
up, so the engine never starts. -/
theorem claim_C6_amended (rate fps count : ℕ) (hfps : 10 ≤ fps) (hcount : 1 ≤ count) :
    (config_output_check rate fps count = CfgResult.einval ↔ ¬ (fps * count ∣ rate)) ∧
    config_output_check 44100 30 6 = CfgResult.ok ∧
    config_output_check 44100 30 11 = CfgResult.einval := by
  refine ⟨?_, by decide, by decide⟩
  have hiff : (fps * count ∣ rate) ↔ rate % (fps * count) = 0 := Nat.dvd_iff_mod_eq_zero
  by_cases h : rate % (fps * count) = 0
  · simp [config_output_check, h, hiff]
  · simp [config_output_check, h, hiff]

/-- Witness for the amended C6 at `rate = 48000, fps = 25, count = 6`. -/
theorem claim_C6_amended_witness :
    ((10:ℕ) ≤ 25 ∧ (1:ℕ) ≤ 6) ∧
    (config_output_check 48000 25 6 = CfgResult.einval ↔ ¬ (25 * 6 ∣ 48000)) :=
  ⟨⟨by decide, by decide⟩, (claim_C6_amended 48000 25 6 (by decide) (by decide)).1⟩

/-! ### Per-frame pipeline (`plot_cqt`, lines 304-470, and `filter_frame`,
lines 472-539)

`plot_cqt` contracts the sparse kernels against the separated spectra,
updates the spectrogram ring, and emits a frame when `spectogram_count == 0`.
`filter_frame` fills the input ring and fires one evaluation each time
`remaining_fill` reaches zero, then left-shifts the ring by `step`.  External
collaborators fixed by the specification as out of scope are modelled as
opaque parameters of the configuration: the gamma power `powf` (libm) as `pw`
and the note-legend glyph rasterization (rows `[SPECTOGRAM_HEIGHT,
SPECTOGRAM_START)`, drawn from the bitmap font) as `legend`. -/

def VIDEO_WIDTH : ℕ := 1920

def VIDEO_HEIGHT : ℕ := 1080

def FONT_HEIGHT : ℕ := 32

def SPECTOGRAM_HEIGHT : ℕ := (VIDEO_HEIGHT - FONT_HEIGHT) / 2

def SPECTOGRAM_START : ℕ := VIDEO_HEIGHT - SPECTOGRAM_HEIGHT

/-- Post-initialization engine configuration: `N = 1 << fft_bits`, the step
`rate / (fps * count)`, the options, the per-column sparse kernels, the FFT
root, and the two opaque external collaborators. -/
structure Config where
  N : ℕ
  step : ℕ
  count : ℕ
  g : ℚ
  ω : CQ
  coeffs : ℕ → List SparseCoeff
  pw : ℚ → ℚ → ℚ
  legend : (ℕ → Fin 3 → ℤ) → ℕ → ℕ → Fin 3 → ℤ

/-- C float-to-`uint8_t` conversion truncates toward zero; every value so
converted in this filter is nonnegative, where truncation is the floor. -/
def u8val (q : ℚ) : ℤ := Int.floor q

/-- Mutable state read and written by `plot_cqt`. -/
structure PlotState where
  spectogram : ℕ → ℕ → Fin 3 → ℤ
  spectogram_index : ℕ
  spectogram_count : ℕ
  frame_count : ℤ

/-- An emitted video frame: its pixel grid (row, column, RGB channel) and its
presentation timestamp in units of `1/fps`. -/
structure Frame where
  pix : ℕ → ℕ → Fin 3 → ℤ
  pts : ℤ

/-- The sparse contraction of lines 346-354: four multiply-accumulates per
retained coefficient. -/
def binDot (S : ℕ → CQ) (cs : List SparseCoeff) : CQ :=
  cs.foldl (fun acc cf =>
    ⟨acc.re + cf.value * (S cf.index).re, acc.im + cf.value * (S cf.index).im⟩) ⟨0, 0⟩

/-- Left-channel bin power `|l|²` (line 356). -/
def powerL (cfg : Config) (L : ℕ → CQ) (x : ℕ) : ℚ :=
  (binDot L (cfg.coeffs x)).re * (binDot L (cfg.coeffs x)).re
    + (binDot L (cfg.coeffs x)).im * (binDot L (cfg.coeffs x)).im

/-- Right-channel bin power `|r|²` (line 357). -/
def powerR (cfg : Config) (R : ℕ → CQ) (x : ℕ) : ℚ :=
  (binDot R (cfg.coeffs x)).re * (binDot R (cfg.coeffs x)).re
    + (binDot R (cfg.coeffs x)).im * (binDot R (cfg.coeffs x)).im

/-- Mid power `0.5 * (pL + pR)` (lines 358-359), also the bar height. -/
def powerM (cfg : Config) (L R : ℕ → CQ) (x : ℕ) : ℚ :=
  (1/2) * (powerL cfg L x + powerR cfg R x)

/-- Gamma correction `255 * powf(min(1, p), 1/gamma)` (lines 360-362), with
the libm `powf` as the opaque parameter `pw`. -/
def colorVal (cfg : Config) (p : ℚ) : ℚ := 255 * cfg.pw (min 1 p) cfg.g

/-- The three gamma-corrected channel colors of a column: red from the left
power, green from the mid power, blue from the right power. -/
def color (cfg : Config) (L R : ℕ → CQ) (x : ℕ) (ch : Fin 3) : ℚ :=
  if ch = 0 then colorVal cfg (powerL cfg L x)
  else if ch = 1 then colorVal cfg (powerM cfg L R x)
  else colorVal cfg (powerR cfg R x)

/-- Bar threshold `(SPECTOGRAM_HEIGHT - y) / SPECTOGRAM_HEIGHT` of line 385. -/
def barHeight (y : ℕ) : ℚ :=
  ((SPECTOGRAM_HEIGHT - y : ℕ) : ℚ) / (SPECTOGRAM_HEIGHT : ℚ)

/-- The spectrogram-row store of lines 365-370: row `spectogram_index`,
columns `0 .. VIDEO_WIDTH-1`, gets the rounded gamma-corrected colors. -/
def specWrite (cfg : Config) (L R : ℕ → CQ) (st : PlotState) : ℕ → ℕ → Fin 3 → ℤ :=
  fun r x ch =>
    if r = st.spectogram_index ∧ x < VIDEO_WIDTH then u8val (color cfg L R x ch + 1/2)
    else st.spectogram r x ch

/-- The emitted frame (lines 373-463): bar rows `[0, SPECTOGRAM_HEIGHT)`,
the legend band `[SPECTOGRAM_HEIGHT, SPECTOGRAM_START)` (external glyph
rasterization over the just-written spectrogram row), and the scrolled
spectrogram history from `SPECTOGRAM_START` down; PTS is the current
`frame_count`. -/
def mkFrame (cfg : Config) (L R : ℕ → CQ) (st : PlotState) : Frame where
  pix := fun y x ch =>
    if y < SPECTOGRAM_HEIGHT then
      if powerM cfg L R x ≤ barHeight y then 0
      else u8val ((powerM cfg L R x - barHeight y)
            * (1 / (powerM cfg L R x + 1/10000)) * color cfg L R x ch + 1/2)
    else if y < SPECTOGRAM_START then
      cfg.legend (specWrite cfg L R st st.spectogram_index) (y - SPECTOGRAM_HEIGHT) x ch
    else
      specWrite cfg L R st
        ((st.spectogram_index + (y - SPECTOGRAM_START)) % SPECTOGRAM_HEIGHT) x ch
  pts := st.frame_count

/-- The drawing core of `plot_cqt` after the spectra are available: write the
spectrogram row at `spectogram_index`, emit a frame when `spectogram_count`
is zero, and advance the counters modulo `count` and `SPECTOGRAM_HEIGHT`. -/
def plotCore (cfg : Config) (L R : ℕ → CQ) (st : PlotState) : PlotState × Option Frame :=
  ({ spectogram := specWrite cfg L R st
     spectogram_index := (st.spectogram_index + SPECTOGRAM_HEIGHT - 1) % SPECTOGRAM_HEIGHT
     spectogram_count := (st.spectogram_count + 1) % cfg.count
     frame_count := st.frame_count + (if st.spectogram_count = 0 then 1 else 0) },
   if st.spectogram_count = 0 then some (mkFrame cfg L R st) else none)

/-- One full CQT evaluation: forward FFT of (a copy of) the ring, dual-real
separation, then the drawing core. -/
def plotEval (cfg : Config) (fd : ℕ → CQ) (st : PlotState) : PlotState × Option Frame :=
  plotCore cfg (unpack cfg.N (dft cfg.N cfg.ω fd)).1 (unpack cfg.N (dft cfg.N cfg.ω fd)).2 st

/-- The drawing state set up by `config_output` (lines 286-292): all counters
zero and the spectrogram history memset to zero. -/
def initPlot : PlotState where
  spectogram := fun _ _ _ => 0
  spectogram_index := 0
  spectogram_count := 0
  frame_count := 0

/-- A run of `n` CQT evaluations from initialization, evaluation `i` seeing
ring contents `data i`; returns the final state and all emitted frames in
order. -/
def runFrames (cfg : Config) (data : ℕ → ℕ → CQ) : ℕ → PlotState × List Frame
  | 0 => (initPlot, [])
  | n + 1 =>
      let p := runFrames cfg data n
      let r := plotEval cfg (data n) p.1
      (r.1, p.2 ++ r.2.toList)

/-- Scheduler state of `filter_frame`: the input ring, the fill counter, the
result buffers overwritten by each evaluation, the drawing state, and the
frames emitted so far. -/
structure SchedState where
  fft_data : ℕ → CQ
  remaining_fill : ℕ
  result_left : ℕ → CQ
  result_right : ℕ → CQ
  plot : PlotState
  frames : List Frame

/-- State after `config_output`: zeroed ring (line 292) and
`remaining_fill = fft_len >> 1` (line 290); the result buffers hold
unspecified freshly-allocated contents, modelled as zero. -/
def initSched (cfg : Config) : SchedState where
  fft_data := fun _ => 0
  remaining_fill := cfg.N / 2
  result_left := fun _ => 0
  result_right := fun _ => 0
  plot := initPlot
  frames := []

/-- Fire one evaluation and shift (lines 512-521): run `plot_cqt` on the
ring (which writes only the result buffers, the spectrogram and the output
frame), then left-shift the ring by `step` in ascending order (each store
reads an index not yet overwritten) and reset `remaining_fill` to `step`. -/
def fireAndShift (cfg : Config) (st : SchedState) : SchedState :=
  let LR := unpack cfg.N (dft cfg.N cfg.ω st.fft_data)
  let pr := plotCore cfg LR.1 LR.2 st.plot
  { fft_data := fun m =>
      if m < cfg.N - cfg.step then st.fft_data (m + cfg.step) else st.fft_data m
    remaining_fill := cfg.step
    result_left := LR.1
    result_right := LR.2
    plot := pr.1
    frames := st.frames ++ pr.2.toList }

/-- Store one interleaved stereo sample pair into the ring at
`fft_len - remaining_fill` (left sample to `re`, right to `im`, lines
507-510) and consume one slot. -/
def writeSample (cfg : Config) (st : SchedState) (s : ℚ × ℚ) : SchedState :=
  { st with
    fft_data := upd st.fft_data (cfg.N - st.remaining_fill) ⟨s.1, s.2⟩
    remaining_fill := st.remaining_fill - 1 }

/-- The `filter_frame` consumption loop (lines 500-536), processed sample by
sample: the C code copies whole blocks, but its stores and its evaluation
fire at `remaining_fill = 0` happen in exactly this order, so the samplewise
form is the same function of the input. -/
def filter_frame_feed (cfg : Config) : SchedState → List (ℚ × ℚ) → SchedState
  | st, [] => st
  | st, s :: rest =>
      let st1 := writeSample cfg st s
      filter_frame_feed cfg
        (if st1.remaining_fill = 0 then fireAndShift cfg st1 else st1) rest

/-- The model of `fft_bits = ceil(log2(rate * timeclamp))` of line 162: the
least `b` with `rate * timeclamp ≤ 2^b`, which for a positive real agrees
with `clog2` of its ceiling. -/
def fft_bits (rate : ℕ) (timeclamp : ℚ) : ℕ :=
  Nat.clog 2 (Nat.ceil ((rate : ℚ) * timeclamp))

/-- Evaluation of `fft_bits` at rate 44100 and timeclamp 0.1:
`ceil(44100 · 0.1) = 4410` and `2^12 < 4410 ≤ 2^13`. -/
theorem fft_bits_44100_tc : fft_bits 44100 (1/10) = 13 := by
  have hceil : Nat.ceil (((44100:ℕ) : ℚ) * (1/10)) = 4410 := by
    have h : (((44100:ℕ) : ℚ) * (1/10)) = ((4410:ℕ) : ℚ) := by push_cast; norm_num
    rw [h, Nat.ceil_natCast]
  have hclog : Nat.clog 2 4410 = 13 := by
    have hle : Nat.clog 2 4410 ≤ 13 :=
      (Nat.le_pow_iff_clog_le (by norm_num)).mp (by norm_num)
    have hgt : ¬ Nat.clog 2 4410 ≤ 12 := by
      intro hcon
      have h2 := (Nat.le_pow_iff_clog_le (b := 2) (by norm_num)).mpr hcon
      norm_num at h2
    omega
  unfold fft_bits
  rw [hceil, hclog]

attribute [irreducible] fft_bits

/-- Assemble the post-`config_output` configuration from the negotiated rate
and the options (`fft_len = 1 << fft_bits`, `step = rate / (fps * count)`). -/
def mkConfig (rate fps count : ℕ) (timeclamp g : ℚ) (ω : CQ)
    (coeffs : ℕ → List SparseCoeff) (pw : ℚ → ℚ → ℚ)
    (legend : (ℕ → Fin 3 → ℤ) → ℕ → ℕ → Fin 3 → ℤ) : Config where
  N := 2 ^ fft_bits rate timeclamp
  step := rate / (fps * count)
  count := count
  g := g
  ω := ω
  coeffs := coeffs
  pw := pw
  legend := legend

theorem plotEval_fst (cfg : Config) (fd : ℕ → CQ) (st : PlotState) :
    (plotEval cfg fd st).1.spectogram_count = (st.spectogram_count + 1) % cfg.count ∧
    (plotEval cfg fd st).1.frame_count
      = st.frame_count + (if st.spectogram_count = 0 then 1 else 0) :=
  ⟨rfl, rfl⟩

theorem plotEval_snd (cfg : Config) (fd : ℕ → CQ) (st : PlotState) :
    (plotEval cfg fd st).2 = if st.spectogram_count = 0
      then some (mkFrame cfg (unpack cfg.N (dft cfg.N cfg.ω fd)).1
          (unpack cfg.N (dft cfg.N cfg.ω fd)).2 st)
      else none := rfl

/-- After `n` evaluations the emission counter equals `n mod count`. -/
theorem runFrames_spectogram_count (cfg : Config) (data : ℕ → ℕ → CQ) (n : ℕ) :
    (runFrames cfg data n).1.spectogram_count = n % cfg.count := by
  induction n with
  | zero => simp [runFrames, initPlot]
  | succ k ih =>
    have h := (plotEval_fst cfg (data k) (runFrames cfg data k).1).1
    show (plotEval cfg (data k) (runFrames cfg data k).1).1.spectogram_count = _
    rw [h, ih]
    simp [Nat.add_mod]

/-- C1 amended: frame emission is gated by `spectogram_count`, which starts
at 0, so the FIRST evaluation already emits frame 0 (with PTS 0); thereafter
evaluation `i` (0-indexed) emits a frame exactly when `i mod count = 0`,
i.e. the `count-1` evaluations following an emission emit nothing and the
next one emits again. -/
theorem claim_C1_amended_gating (cfg : Config) (data : ℕ → ℕ → CQ) (n : ℕ) :
    ((plotEval cfg (data n) (runFrames cfg data n).1).2.isSome = true
      ↔ n % cfg.count = 0) ∧
    ∃ fr, (runFrames cfg data 1).2 = [fr] ∧ fr.pts = 0 := by
  constructor
  · rw [plotEval_snd]
    simp only [runFrames_spectogram_count]
    by_cases h : n % cfg.count = 0
    · simp [h]
    · simp [h]
  · exact ⟨_, rfl, rfl⟩

/-- All-zero ring contents for every evaluation (silence). -/
def zdata : ℕ → ℕ → CQ := fun _ _ => 0

/-- The default configuration of the filter: rate 44100, fps 25, count 6,
timeclamp 0.17, gamma 3 (`g = 1/3`); kernels, FFT root and the external
collaborators are irrelevant to the scheduling claims and instantiated
trivially. -/
def cfgDefault : Config :=
  mkConfig 44100 25 6 (17/100) (1/3) ⟨-1, 0⟩ (fun _ => []) (fun _ _ => 0)
    (fun _ _ _ _ => 0)

/-- C1, counterexample: with the default `count = 6 > 1` the very FIRST
evaluation already emits a frame (`spectogram_count` starts at 0 and the
emission test is `spectogram_count == 0`), contradicting the claim that the
first `count - 1` evaluations emit no frame and only the `count`-th emits
frame 0. -/
theorem claim_C1_counterexample :
    1 < cfgDefault.count ∧ ((runFrames cfgDefault zdata 1).2).length = 1 := by
  refine ⟨by decide, rfl⟩

/-- C8: after any number of evaluations, `frame_count` equals the number of
frames emitted so far, and the emitted PTS sequence is exactly `0, 1, 2, ...`
(each emission stamps the current `frame_count`, then increments it;
`frame_count` starts at 0). -/
theorem claim_C8_pts_sequence (cfg : Config) (data : ℕ → ℕ → CQ) (n : ℕ) :
    (runFrames cfg data n).1.frame_count = ((runFrames cfg data n).2.length : ℤ) ∧
    (runFrames cfg data n).2.map Frame.pts
      = (List.range (runFrames cfg data n).2.length).map (fun j => (j : ℤ)) := by
  induction n with
  | zero => simp [runFrames, initPlot]
  | succ k ih =>
    obtain ⟨ih1, ih2⟩ := ih
    have hfc := (plotEval_fst cfg (data k) (runFrames cfg data k).1).2
    have hsnd := plotEval_snd cfg (data k) (runFrames cfg data k).1
    have hfst : (runFrames cfg data (k+1)).1
        = (plotEval cfg (data k) (runFrames cfg data k).1).1 := rfl
    have hfrm : (runFrames cfg data (k+1)).2
        = (runFrames cfg data k).2
          ++ ((plotEval cfg (data k) (runFrames cfg data k).1).2).toList := rfl
    by_cases h : (runFrames cfg data k).1.spectogram_count = 0
    · have hlist : (runFrames cfg data (k+1)).2
          = (runFrames cfg data k).2
            ++ [mkFrame cfg (unpack cfg.N (dft cfg.N cfg.ω (data k))).1
                (unpack cfg.N (dft cfg.N cfg.ω (data k))).2 (runFrames cfg data k).1] := by
        rw [hfrm, hsnd, if_pos h]
        rfl
      constructor
      · rw [hfst, hfc, if_pos h, hlist, ih1]
        simp
      · rw [hlist]
        rw [List.map_append, ih2]
        have hpts : (mkFrame cfg (unpack cfg.N (dft cfg.N cfg.ω (data k))).1
            (unpack cfg.N (dft cfg.N cfg.ω (data k))).2 (runFrames cfg data k).1).pts
            = ((runFrames cfg data k).2.length : ℤ) := by
          rw [show (mkFrame cfg (unpack cfg.N (dft cfg.N cfg.ω (data k))).1
            (unpack cfg.N (dft cfg.N cfg.ω (data k))).2 (runFrames cfg data k).1).pts
            = (runFrames cfg data k).1.frame_count from rfl, ih1]
        simp [hpts, List.length_append, List.range_succ]
    · have hlist : (runFrames cfg data (k+1)).2 = (runFrames cfg data k).2 := by
        rw [hfrm, hsnd, if_neg h]
        simp
      constructor
      · rw [hfst, hfc, if_neg h, hlist, ih1]
        ring
      · rw [hlist]
        exact ih2

/-- C9: a CQT evaluation leaves the input ring unchanged — `plot_cqt` copies
the ring into `fft_result_left` and transforms the copy, so its writes go
only to the result buffers, the spectrogram and the output frame, and the
evaluation's outputs are a pure function of the ring contents; the only
mutation of the ring is the subsequent left-shift by `step` in
`filter_frame`. -/
theorem claim_C9_ring_readonly (cfg : Config) (st : SchedState) :
    (∀ m, (fireAndShift cfg st).fft_data m =
      if m < cfg.N - cfg.step then st.fft_data (m + cfg.step) else st.fft_data m) ∧
    (fireAndShift cfg st).result_left = (unpack cfg.N (dft cfg.N cfg.ω st.fft_data)).1 ∧
    (fireAndShift cfg st).result_right = (unpack cfg.N (dft cfg.N cfg.ω st.fft_data)).2 ∧
    (fireAndShift cfg st).plot
      = (plotCore cfg (unpack cfg.N (dft cfg.N cfg.ω st.fft_data)).1
          (unpack cfg.N (dft cfg.N cfg.ω st.fft_data)).2 st.plot).1 ∧
    (fireAndShift cfg st).frames
      = st.frames ++ ((plotCore cfg (unpack cfg.N (dft cfg.N cfg.ω st.fft_data)).1
          (unpack cfg.N (dft cfg.N cfg.ω st.fft_data)).2 st.plot).2).toList :=
  ⟨fun _ => rfl, rfl, rfl, rfl, rfl⟩

/-- Between evaluations the fill counter, once in `[1, max(N/2, step)]`,
stays there: each stored sample decrements it, and when it hits zero the
evaluation fires and it is reset to `step`. -/
theorem feed_rf_invariant (cfg : Config) (hstep : 1 ≤ cfg.step) :
    ∀ (l : List (ℚ × ℚ)) (st : SchedState),
      1 ≤ st.remaining_fill → st.remaining_fill ≤ max (cfg.N / 2) cfg.step →
      1 ≤ (filter_frame_feed cfg st l).remaining_fill ∧
      (filter_frame_feed cfg st l).remaining_fill ≤ max (cfg.N / 2) cfg.step := by
  intro l
  induction l with
  | nil => intro st h1 h2; exact ⟨h1, h2⟩
  | cons s rest ih =>
    intro st h1 h2
    rw [show filter_frame_feed cfg st (s :: rest)
        = filter_frame_feed cfg
          (if (writeSample cfg st s).remaining_fill = 0
            then fireAndShift cfg (writeSample cfg st s)
            else writeSample cfg st s) rest from rfl]
    have hw : (writeSample cfg st s).remaining_fill = st.remaining_fill - 1 := rfl
    by_cases h0 : (writeSample cfg st s).remaining_fill = 0
    · rw [if_pos h0]
      refine ih (fireAndShift cfg (writeSample cfg st s)) ?_ ?_
      · show 1 ≤ cfg.step
        exact hstep
      · show cfg.step ≤ max (cfg.N / 2) cfg.step
        exact le_max_right _ _
    · rw [if_neg h0]
      refine ih (writeSample cfg st s) ?_ ?_
      · omega
      · have hmax : st.remaining_fill ≤ max (cfg.N / 2) cfg.step := h2
        omega

/-- C2 amended: the fill counter `remaining_fill` stays in
`[1, max(N/2, step)]` between evaluations (so in `[0, N/2]` whenever
`step ≤ N/2`, which holds for moderate configurations but NOT for all valid
ones); it starts at `N/2` and is reset to `step = rate/(fps·count)` after
every evaluation. -/
theorem claim_C2_amended_fill_invariant (cfg : Config) (l : List (ℚ × ℚ))
    (hstep : 1 ≤ cfg.step) (hN : 2 ≤ cfg.N) :
    (1 ≤ (filter_frame_feed cfg (initSched cfg) l).remaining_fill ∧
     (filter_frame_feed cfg (initSched cfg) l).remaining_fill
        ≤ max (cfg.N / 2) cfg.step) ∧
    (1 ≤ (initSched cfg).remaining_fill ∧
     (initSched cfg).remaining_fill ≤ max (cfg.N / 2) cfg.step) ∧
    (∀ st, (fireAndShift cfg st).remaining_fill = cfg.step) := by
  have hinit1 : 1 ≤ (initSched cfg).remaining_fill := by
    show 1 ≤ cfg.N / 2
    omega
  have hinit2 : (initSched cfg).remaining_fill ≤ max (cfg.N / 2) cfg.step :=
    le_max_left _ _
  exact ⟨feed_rf_invariant cfg hstep l _ hinit1 hinit2, ⟨hinit1, hinit2⟩, fun _ => rfl⟩

/-- Small concrete configuration for scheduler witnesses. -/
def cfgSmall : Config where
  N := 4
  step := 1
  count := 2
  g := 1
  ω := ⟨-1, 0⟩
  coeffs := fun _ => []
  pw := fun _ _ => 0
  legend := fun _ _ _ _ => 0

/-- Witness for the amended C2 on a one-sample input. -/
theorem claim_C2_amended_fill_invariant_witness :
    (1 ≤ cfgSmall.step ∧ 2 ≤ cfgSmall.N) ∧
    (1 ≤ (filter_frame_feed cfgSmall (initSched cfgSmall)
        [((0:ℚ), (0:ℚ))]).remaining_fill ∧
     (filter_frame_feed cfgSmall (initSched cfgSmall)
        [((0:ℚ), (0:ℚ))]).remaining_fill ≤ max (cfgSmall.N / 2) cfgSmall.step) :=
  ⟨⟨by decide, by decide⟩,
    (claim_C2_amended_fill_invariant cfgSmall [((0:ℚ), (0:ℚ))]
      (by decide) (by decide)).1⟩

/-- Feeding exactly `remaining_fill` samples fires one evaluation and leaves
the counter reset to `step`. -/
theorem feed_exact_fill (cfg : Config) :
    ∀ (l : List (ℚ × ℚ)) (st : SchedState),
      st.remaining_fill = l.length → 1 ≤ st.remaining_fill →
      (filter_frame_feed cfg st l).remaining_fill = cfg.step := by
  intro l
  induction l with
  | nil =>
    intro st hlen h1
    rw [hlen] at h1
    simp at h1
  | cons s rest ih =>
    intro st hlen h1
    rw [List.length_cons] at hlen
    show (filter_frame_feed cfg
        (if (writeSample cfg st s).remaining_fill = 0
          then fireAndShift cfg (writeSample cfg st s)
          else writeSample cfg st s) rest).remaining_fill = cfg.step
    have hw : (writeSample cfg st s).remaining_fill = st.remaining_fill - 1 := rfl
    by_cases h0 : (writeSample cfg st s).remaining_fill = 0
    · rw [if_pos h0]
      have hrest : rest = [] := by
        have hrl : rest.length = 0 := by omega
        exact List.length_eq_zero.mp hrl
      subst hrest
      rfl
    · rw [if_neg h0]
      refine ih (writeSample cfg st s) ?_ ?_
      · omega
      · omega

/-- The configuration exhibiting the C2 violation: rate 44100, fps 10,
count 1, timeclamp 0.1 — all in range and divisible.  Its fields are spelled
as literals (`N = 2^13 = 8192`, `step = 44100/10 = 4410`);
`cfgX_eq_mkConfig` below proves it IS the configuration `config_output`
computes for these parameters. -/
def cfgX : Config where
  N := 8192
  step := 4410
  count := 1
  g := 1/3
  ω := ⟨-1, 0⟩
  coeffs := fun _ => []
  pw := fun _ _ => 0
  legend := fun _ _ _ _ => 0

theorem cfgX_eq_mkConfig : cfgX = mkConfig 44100 10 1 (1/10) (1/3) ⟨-1, 0⟩
    (fun _ => []) (fun _ _ => 0) (fun _ _ _ _ => 0) := by
  show Config.mk 8192 4410 1 (1/3) ⟨-1, 0⟩ (fun _ => []) (fun _ _ => 0)
      (fun _ _ _ _ => 0)
    = Config.mk (2 ^ fft_bits 44100 (1/10)) (44100 / (10 * 1)) 1 (1/3) ⟨-1, 0⟩
      (fun _ => []) (fun _ _ => 0) (fun _ _ _ _ => 0)
  rw [fft_bits_44100_tc]
  norm_num [Config.mk.injEq]

/-- C2, counterexample: the valid configuration rate 44100, fps 10, count 1,
timeclamp 0.1 (divisible, all options in range) has `N = 8192` but
`step = 4410 > N/2 = 4096`; after the first evaluation (fed exactly `N/2`
samples) `remaining_fill = 4410`, leaving the claimed interval `[0, N/2]`
and refuting that `step ≤ N/2` always holds. -/
theorem claim_C2_counterexample :
    44100 % (10 * 1) = 0 ∧
    cfgX = mkConfig 44100 10 1 (1/10) (1/3) ⟨-1, 0⟩ (fun _ => []) (fun _ _ => 0)
      (fun _ _ _ _ => 0) ∧
    cfgX.N = 8192 ∧ cfgX.step = 4410 ∧
    (filter_frame_feed cfgX (initSched cfgX)
        (List.replicate 4096 ((0:ℚ), (0:ℚ)))).remaining_fill = 4410 ∧
    ¬ ((filter_frame_feed cfgX (initSched cfgX)
        (List.replicate 4096 ((0:ℚ), (0:ℚ)))).remaining_fill ≤ cfgX.N / 2) := by
  have hfeed : (filter_frame_feed cfgX (initSched cfgX)
      (List.replicate 4096 ((0:ℚ), (0:ℚ)))).remaining_fill = cfgX.step := by
    apply feed_exact_fill
    · show (8192:ℕ) / 2 = (List.replicate 4096 ((0:ℚ), (0:ℚ))).length
      rw [List.length_replicate]
    · show 1 ≤ (8192:ℕ) / 2
      norm_num
  refine ⟨by decide, cfgX_eq_mkConfig, rfl, rfl, by rw [hfeed]; rfl, ?_⟩
  rw [hfeed]
  show ¬ ((4410:ℕ) ≤ 8192 / 2)
  norm_num

/-! ### Silence yields black frames (claim C7) -/

theorem dft_zero_fun (N : ℕ) (ω : CQ) (fd : ℕ → CQ) (h : ∀ m, fd m = 0) (k : ℕ) :
    dft N ω fd k = 0 := by
  unfold dft
  simp [h]

theorem unpackLoop_zero (N : ℕ) (F : ℕ → CQ) (hF : ∀ i, F i = 0) :
    ∀ m i, (unpackLoop N F m).1 i = 0 ∧ (unpackLoop N F m).2 i = 0 := by
  intro m
  induction m with
  | zero =>
    intro i
    constructor <;> simp [unpackLoop, unpackInit, upd, hF]
  | succ k ih =>
    intro i
    have h1 : ∀ j, (unpackLoop N F k).1 j = 0 := fun j => (ih j).1
    have h2 : ∀ j, (unpackLoop N F k).2 j = 0 := fun j => (ih j).2
    constructor <;> simp [unpackLoop, unpackStep, upd, h1, h2]

theorem unpack_zero_fun (N : ℕ) (F : ℕ → CQ) (hF : ∀ i, F i = 0) (i : ℕ) :
    (unpack N F).1 i = 0 ∧ (unpack N F).2 i = 0 :=
  unpackLoop_zero N F hF (N / 2) i

theorem binDot_zero (S : ℕ → CQ) (hS : ∀ i, S i = 0) (cs : List SparseCoeff) :
    binDot S cs = 0 := by
  have hgen : ∀ (l : List SparseCoeff) (acc : CQ),
      List.foldl (fun acc cf =>
        (⟨acc.re + cf.value * (S cf.index).re,
          acc.im + cf.value * (S cf.index).im⟩ : CQ)) acc l = acc := by
    intro l
    induction l with
    | nil => intro acc; rfl
    | cons c rest ih =>
      intro acc
      simp only [List.foldl]
      rw [show (⟨acc.re + c.value * (S c.index).re,
            acc.im + c.value * (S c.index).im⟩ : CQ) = acc from by
        rw [hS]
        ext <;> simp]
      exact ih acc
  simpa [binDot] using hgen cs ⟨0, 0⟩

theorem powerM_zero (cfg : Config) (L R : ℕ → CQ) (x : ℕ)
    (hL : ∀ i, L i = 0) (hR : ∀ i, R i = 0) : powerM cfg L R x = 0 := by
  simp [powerM, powerL, powerR, binDot_zero L hL, binDot_zero R hR]

theorem color_zero (cfg : Config) (L R : ℕ → CQ) (x : ℕ) (ch : Fin 3)
    (hL : ∀ i, L i = 0) (hR : ∀ i, R i = 0) (hpw : cfg.pw 0 cfg.g = 0) :
    color cfg L R x ch = 0 := by
  have hc : colorVal cfg 0 = 0 := by
    unfold colorVal
    rw [show min (1:ℚ) 0 = 0 from by norm_num, hpw]
    ring
  simp [color, powerL, powerR, powerM, binDot_zero L hL, binDot_zero R hR]
  simpa [colorVal] using hc

theorem specWrite_zero (cfg : Config) (L R : ℕ → CQ) (st : PlotState)
    (hL : ∀ i, L i = 0) (hR : ∀ i, R i = 0) (hpw : cfg.pw 0 cfg.g = 0)
    (hhist : ∀ r x ch, st.spectogram r x ch = 0) :
    ∀ r x ch, specWrite cfg L R st r x ch = 0 := by
  intro r x ch
  unfold specWrite
  by_cases h : r = st.spectogram_index ∧ x < VIDEO_WIDTH
  · rw [if_pos h, color_zero cfg L R x ch hL hR hpw]
    unfold u8val
    norm_num
  · rw [if_neg h]
    exact hhist r x ch

theorem mkFrame_silent (cfg : Config) (L R : ℕ → CQ) (st : PlotState)
    (hL : ∀ i, L i = 0) (hR : ∀ i, R i = 0) (hpw : cfg.pw 0 cfg.g = 0)
    (hhist : ∀ r x ch, st.spectogram r x ch = 0) :
    (∀ y x ch, y < SPECTOGRAM_HEIGHT → (mkFrame cfg L R st).pix y x ch = 0) ∧
    (∀ y x ch, SPECTOGRAM_START ≤ y → y < VIDEO_HEIGHT →
      (mkFrame cfg L R st).pix y x ch = 0) := by
  have hsw := specWrite_zero cfg L R st hL hR hpw hhist
  constructor
  · intro y x ch hy
    show (if y < SPECTOGRAM_HEIGHT then _ else _) = 0
    rw [if_pos hy, if_pos]
    rw [powerM_zero cfg L R x hL hR]
    unfold barHeight
    positivity
  · intro y x ch hy1 hy2
    have h524 : SPECTOGRAM_HEIGHT = 524 := rfl
    have h556 : SPECTOGRAM_START = 556 := rfl
    show (if y < SPECTOGRAM_HEIGHT then _ else _) = 0
    rw [if_neg (by omega), if_neg (by omega)]
    exact hsw _ x ch

/-- The inductive invariant of a silent run: zero ring, zero spectrogram
history, and every emitted frame black in the bar and spectrogram regions. -/
def silentInv (st : SchedState) : Prop :=
  (∀ m, st.fft_data m = 0) ∧
  (∀ r x ch, st.plot.spectogram r x ch = 0) ∧
  (∀ fr ∈ st.frames,
    (∀ y x ch, y < SPECTOGRAM_HEIGHT → fr.pix y x ch = 0) ∧
    (∀ y x ch, SPECTOGRAM_START ≤ y → y < VIDEO_HEIGHT → fr.pix y x ch = 0))

theorem fireAndShift_silent (cfg : Config) (st : SchedState)
    (hpw : cfg.pw 0 cfg.g = 0) (hinv : silentInv st) :
    silentInv (fireAndShift cfg st) := by
  obtain ⟨hring, hhist, hfr⟩ := hinv
  have hdft : ∀ k, dft cfg.N cfg.ω st.fft_data k = 0 :=
    dft_zero_fun cfg.N cfg.ω st.fft_data hring
  have hL : ∀ i, (unpack cfg.N (dft cfg.N cfg.ω st.fft_data)).1 i = 0 :=
    fun i => (unpack_zero_fun cfg.N _ hdft i).1
  have hR : ∀ i, (unpack cfg.N (dft cfg.N cfg.ω st.fft_data)).2 i = 0 :=
    fun i => (unpack_zero_fun cfg.N _ hdft i).2
  refine ⟨?_, ?_, ?_⟩
  · intro m
    show (if m < cfg.N - cfg.step then st.fft_data (m + cfg.step)
        else st.fft_data m) = 0
    by_cases h : m < cfg.N - cfg.step
    · rw [if_pos h]; exact hring _
    · rw [if_neg h]; exact hring _
  · exact specWrite_zero cfg _ _ st.plot hL hR hpw hhist
  · intro fr hmem
    have hmem2 : fr ∈ st.frames ++
        ((plotCore cfg (unpack cfg.N (dft cfg.N cfg.ω st.fft_data)).1
          (unpack cfg.N (dft cfg.N cfg.ω st.fft_data)).2 st.plot).2).toList := hmem
    rw [List.mem_append] at hmem2
    rcases hmem2 with hold | hnew
    · exact hfr fr hold
    · by_cases hc : st.plot.spectogram_count = 0
      · have hsome : (plotCore cfg (unpack cfg.N (dft cfg.N cfg.ω st.fft_data)).1
            (unpack cfg.N (dft cfg.N cfg.ω st.fft_data)).2 st.plot).2
            = some (mkFrame cfg (unpack cfg.N (dft cfg.N cfg.ω st.fft_data)).1
                (unpack cfg.N (dft cfg.N cfg.ω st.fft_data)).2 st.plot) := by
          simp [plotCore, hc]
        rw [hsome] at hnew
        simp at hnew
        subst hnew
        exact mkFrame_silent cfg (unpack cfg.N (dft cfg.N cfg.ω st.fft_data)).1
          (unpack cfg.N (dft cfg.N cfg.ω st.fft_data)).2 st.plot hL hR hpw hhist
      · have hnone : (plotCore cfg (unpack cfg.N (dft cfg.N cfg.ω st.fft_data)).1
            (unpack cfg.N (dft cfg.N cfg.ω st.fft_data)).2 st.plot).2 = none := by
          simp [plotCore, hc]
        rw [hnone] at hnew
        simp at hnew

theorem feed_silent (cfg : Config) (hpw : cfg.pw 0 cfg.g = 0) :
    ∀ (l : List (ℚ × ℚ)) (st : SchedState),
      (∀ p ∈ l, p = ((0:ℚ), (0:ℚ))) → silentInv st →
      silentInv (filter_frame_feed cfg st l) := by
  intro l
  induction l with
  | nil => intro st _ hinv; exact hinv
  | cons s rest ih =>
    intro st hl hinv
    obtain ⟨hring, hhist, hfr⟩ := hinv
    have hs : s = ((0:ℚ), (0:ℚ)) := hl s (by simp)
    have hw : silentInv (writeSample cfg st s) := by
      refine ⟨?_, hhist, hfr⟩
      intro m
      show upd st.fft_data (cfg.N - st.remaining_fill) ⟨s.1, s.2⟩ m = 0
      unfold upd
      by_cases h : m = cfg.N - st.remaining_fill
      · rw [if_pos h, hs]
        rfl
      · rw [if_neg h]
        exact hring m
    show silentInv (filter_frame_feed cfg
        (if (writeSample cfg st s).remaining_fill = 0
          then fireAndShift cfg (writeSample cfg st s)
          else writeSample cfg st s) rest)
    by_cases h0 : (writeSample cfg st s).remaining_fill = 0
    · rw [if_pos h0]
      exact ih _ (fun p hp => hl p (by simp [hp])) (fireAndShift_silent cfg _ hpw hw)
    · rw [if_neg h0]
      exact ih _ (fun p hp => hl p (by simp [hp])) hw

/-- C7: for every configuration, if every input sample is zero then every
emitted frame has an all-black bar region (rows `0 .. SPECTOGRAM_HEIGHT-1`)
and an all-black spectrogram region (rows `SPECTOGRAM_START .. 1079`): zero
input gives zero spectra, zero bin powers, gamma-corrected color 0, and the
bar branch takes the black case since power 0 never exceeds the positive
height threshold.  (`powf` satisfies `powf(0, g) = 0` for the positive
exponents `g = 1/gamma` allowed by the option range.) -/
theorem claim_C7_silence_black (cfg : Config) (l : List (ℚ × ℚ))
    (hpw : cfg.pw 0 cfg.g = 0) (hl : ∀ p ∈ l, p = ((0:ℚ), (0:ℚ))) :
    ∀ fr ∈ (filter_frame_feed cfg (initSched cfg) l).frames,
      (∀ y x ch, y < SPECTOGRAM_HEIGHT → fr.pix y x ch = 0) ∧
      (∀ y x ch, SPECTOGRAM_START ≤ y → y < VIDEO_HEIGHT → fr.pix y x ch = 0) := by
  have hinit : silentInv (initSched cfg) :=
    ⟨fun _ => rfl, fun _ _ _ => rfl, by simp [initSched]⟩
  exact (feed_silent cfg hpw l (initSched cfg) hl hinit).2.2

/-- Witness for C7: two zero samples through the small configuration (whose
`N/2 = 2`, so one evaluation fires and one frame is emitted). -/
theorem claim_C7_silence_black_witness :
    (cfgSmall.pw 0 cfgSmall.g = 0 ∧
     ∀ p ∈ [((0:ℚ), (0:ℚ)), ((0:ℚ), (0:ℚ))], p = ((0:ℚ), (0:ℚ))) ∧
    ∀ fr ∈ (filter_frame_feed cfgSmall (initSched cfgSmall)
        [((0:ℚ), (0:ℚ)), ((0:ℚ), (0:ℚ))]).frames,
      (∀ y x ch, y < SPECTOGRAM_HEIGHT → fr.pix y x ch = 0) ∧
      (∀ y x ch, SPECTOGRAM_START ≤ y → y < VIDEO_HEIGHT → fr.pix y x ch = 0) :=
  ⟨⟨rfl, by simp⟩, claim_C7_silence_black cfgSmall _ rfl (by simp)⟩
